import Mathlib

/-!
Verification of `stopes/modules/speech/postprocess.py`.

The development shallowly embeds the module: Python floats become `ℚ`
(lifted to `ℝ` where a square root is involved), Python lists become
`List`, the insertion-ordered `dict` becomes an association list, and
raising an exception becomes returning `Except.error`.  The helpers
imported from `stopes.modules.speech.utils` (`Audio`, `Text`,
`split_mining_line`, `compute_overlap`, `IntersectMethods`) are not part
of the analysed source file; they are modelled from the specification
and carry a doc comment saying so.
-/

namespace Stopes

/-- An audio span: source file path, start offset and duration
(the fields of `utils.Audio` that `postprocess.py` reads:
`.path`, `.start`, `.duration`). -/
structure Audio where
  path : String
  start : ℚ
  duration : ℚ
  deriving DecidableEq, Repr

/-- A text span.  Modelled from the spec: a TextSpan carries only
identifying/content data and no temporal extent, in particular no
`path`, `start` or `duration` attribute. -/
structure Text where
  content : String
  deriving DecidableEq, Repr

/-- One side of a mining pair: either an audio span or a text span
(the `isinstance(x, Audio)` discrimination used by the source). -/
inductive Item where
  | audio (a : Audio)
  | text (t : Text)
  deriving DecidableEq, Repr

/-- `isinstance(x, Audio)`. -/
def Item.isAudio : Item → Bool
  | .audio _ => true
  | .text _ => false

/-- One parsed mining line: two items and an alignment score
(`utils.MiningLineResult` as consumed by `postprocess.py`). -/
structure MiningLineResult where
  src : Item
  tgt : Item
  score : ℚ
  deriving DecidableEq, Repr

/-- A raw input line, modelled as its parsed content: decoding the text
of a line is the input collaborator's responsibility per the spec, so a
raw line is identified with the record it decodes to before any
sampling-factor rescaling. -/
abbrev RawLine := MiningLineResult

/-- The value of `self.src_attr`: which attribute of a record holds the
audio item ("src" or "tgt"). -/
inductive SrcAttr where
  | src
  | tgt
  deriving DecidableEq, Repr

/-- `self.load_input(mining_result)`: `getattr(mining_result, self.src_attr)`. -/
def load_input (sa : SrcAttr) (mr : MiningLineResult) : Item :=
  match sa with
  | .src => mr.src
  | .tgt => mr.tgt

/-- The audio item selected by `src_attr`, if it is indeed audio.
`none` corresponds to Python raising `AttributeError` when `.path`,
`.start` or `.duration` is read off a `Text`. -/
def audioOf (sa : SrcAttr) (mr : MiningLineResult) : Option Audio :=
  match load_input sa mr with
  | .audio a => some a
  | .text _ => none

/-- Total stand-in for the attribute accesses
`self.load_input(x).start` / `.duration` inside `postprocess` and
`line_passes_thresholds`: groups built by `load_file` only ever hold
records whose selected item is audio (see the grouping invariant), so
the default value is never reached on pipeline data. -/
def getAudioD (sa : SrcAttr) (mr : MiningLineResult) : Audio :=
  (audioOf sa mr).getD ⟨"", 0, 0⟩

/-- Modelled from the spec: the overlap-method enumeration
`utils.IntersectMethods`.  Only the fraction method is specified. -/
inductive IntersectMethods where
  | FRACTION
  deriving DecidableEq, Repr

/-- Modelled from the spec: `utils.compute_overlap` with the fraction
method — the length of the temporal intersection of the two spans
divided by the shorter span's length; zero-length spans yield 0 and
disjoint spans yield exactly 0. -/
def compute_overlap (segment1 segment2 : Audio) (method : IntersectMethods) : ℚ :=
  match method with
  | .FRACTION =>
    let inter :=
      min (segment1.start + segment1.duration) (segment2.start + segment2.duration) -
        max segment1.start segment2.start
    let ref := min segment1.duration segment2.duration
    if ref ≤ 0 then 0 else if inter ≤ 0 then 0 else inter / ref

/-- Modelled from the spec: when a sampling factor is configured,
`split_mining_line` rescales audio sample counts to milliseconds; the
kind of each item, paths and the score are unaffected. -/
def rescaleAudio (f : ℚ) (a : Audio) : Audio :=
  { a with start := a.start / f, duration := a.duration / f }

/-- Modelled from the spec: rescaling acts on audio items only. -/
def rescaleItem (f : ℚ) : Item → Item
  | .audio a => .audio (rescaleAudio f a)
  | .text t => .text t

/-- Modelled from the spec: `utils.split_mining_line(line, sampling_factor)`
parses one raw line into a record; `sampling_factor` (default `None`)
only rescales the numeric fields of audio items. -/
def split_mining_line (line : RawLine) (sampling_factor : Option ℚ := none) :
    MiningLineResult :=
  match sampling_factor with
  | none => line
  | some f => { line with src := rescaleItem f line.src, tgt := rescaleItem f line.tgt }

/-- The configuration fields of `PostProcessAudioConfig` that the
algorithm reads.  The plumbing fields (`output_dir`, `output_filename`,
`mining_result_path`, `requirements`) concern I/O and cluster resources
only and are omitted.  Note: the dataclass has no `sigma_multiplier`
field. -/
structure PostProcessAudioConfig where
  min_audio_length : ℚ
  mining_threshold : ℚ
  max_overlap : ℚ := 1 / 5
  overlap_method : IntersectMethods := .FRACTION
  sampling_factor : Option ℚ := none
  deriving DecidableEq, Repr

/-- Per-path retention statistics: the inner dict
`{"starting_lines": ..., "kept_lines": ...}` of `StatsDict`. -/
structure RetentionStat where
  starting_lines : Nat
  kept_lines : Nat
  deriving DecidableEq, Repr

/-- `StatsDict` as an insertion-ordered association list. -/
abbrev StatsL := List (String × RetentionStat)

/-- The insertion-ordered `sources` dict. -/
abbrev Sources := List (String × List MiningLineResult)

/-- The errors `load_file` can abort with: the empty-file `ValueError`,
the neither-item-is-audio `ValueError` of `which_object_audio`
(carrying the offending raw input), and the `AttributeError` raised
when an audio attribute is read off a text item. -/
inductive LoadErr where
  | emptyFile
  | notAudio (line : RawLine)
  | attrError
  deriving DecidableEq, Repr

instance {ε α : Type} [DecidableEq ε] [DecidableEq α] : DecidableEq (Except ε α) := fun a b =>
  match a, b with
  | .error e1, .error e2 =>
    if h : e1 = e2 then .isTrue (by rw [h]) else .isFalse (by simp [h])
  | .ok v1, .ok v2 =>
    if h : v1 = v2 then .isTrue (by rw [h]) else .isFalse (by simp [h])
  | .error _, .ok _ => .isFalse (by simp)
  | .ok _, .error _ => .isFalse (by simp)

/-- `which_object_audio(src, tgt, line)`: "src" if `src` is audio, else
"tgt" if `tgt` is audio, else a `ValueError` identifying `line`. -/
def which_object_audio (src tgt : Item) (line : RawLine) : Except LoadErr SrcAttr :=
  if src.isAudio then .ok .src
  else if tgt.isAudio then .ok .tgt
  else .error (.notAudio line)

/-- `line_passes_thresholds(line)`:
`line.score > self.mining_threshold and self.load_input(line).duration > self.min_audio_length`
(`self.mining_threshold` and `self.min_audio_length` are copies of the
config fields made in `__init__`). -/
def line_passes_thresholds (mining_threshold min_audio_length : ℚ) (sa : SrcAttr)
    (line : MiningLineResult) : Bool :=
  decide (line.score > mining_threshold) &&
    decide ((getAudioD sa line).duration > min_audio_length)

/-- `sources[path].append(mining_result)`, creating the key at the end
of the insertion order when absent (Python dict semantics). -/
def addGroup : Sources → String → MiningLineResult → Sources
  | [], path, mr => [(path, [mr])]
  | (q, l) :: rest, path, mr =>
    if q = path then (q, l ++ [mr]) :: rest
    else (q, l) :: addGroup rest path mr

/-- The `while line:` loop of `load_file`: each line is re-parsed with
the default `sampling_factor=None`, the path of the selected item is
read (an `AttributeError` if that item is not audio), and the record is
grouped under its path iff it passes the thresholds. -/
def loadLoop (mining_threshold min_audio_length : ℚ) (sa : SrcAttr) :
    List RawLine → Sources → Except LoadErr Sources
  | [], sources => .ok sources
  | line :: rest, sources =>
    let mining_result := split_mining_line line
    match audioOf sa mining_result with
    | none => .error .attrError
    | some a =>
      if line_passes_thresholds mining_threshold min_audio_length sa mining_result then
        loadLoop mining_threshold min_audio_length sa rest (addGroup sources a.path mining_result)
      else
        loadLoop mining_threshold min_audio_length sa rest sources

/-- `load_file`: fail on an empty file; parse the first line with the
configured `sampling_factor` to detect which item is audio (storing
`self.src_attr`, returned here alongside the groups); then run the
`while` loop over all lines — including the first, re-parsed with
`sampling_factor=None`. -/
def load_file (cfg : PostProcessAudioConfig) (lines : List RawLine) :
    Except LoadErr (SrcAttr × Sources) :=
  match lines with
  | [] => .error .emptyFile
  | line0 :: _ =>
    let mining_result := split_mining_line line0 cfg.sampling_factor
    match which_object_audio mining_result.src mining_result.tgt line0 with
    | .error e => .error e
    | .ok sa =>
      (loadLoop cfg.mining_threshold cfg.min_audio_length sa lines []).map
        (fun sources => (sa, sources))

/-- The sort key order of `sorted(line_list, key=lambda x: self.load_input(x).start)`. -/
def startLE (sa : SrcAttr) (a b : MiningLineResult) : Prop :=
  (getAudioD sa a).start ≤ (getAudioD sa b).start

instance (sa : SrcAttr) : DecidableRel (startLE sa) :=
  fun _ _ => inferInstanceAs (Decidable (_ ≤ _))

instance (sa : SrcAttr) : IsTotal MiningLineResult (startLE sa) :=
  ⟨fun _ _ => le_total _ _⟩

instance (sa : SrcAttr) : IsTrans MiningLineResult (startLE sa) :=
  ⟨fun _ _ _ hab hbc => le_trans hab hbc⟩

/-- `sorted(line_list, key=lambda x: self.load_input(x).start)`:
Python's sort is stable and ascending on the key; insertion sort with
the total preorder `startLE` computes the same list. -/
def sortByStart (sa : SrcAttr) (l : List MiningLineResult) : List MiningLineResult :=
  List.insertionSort (startLE sa) l

/-- The per-group `for line in line_list:` scan of `postprocess`.  The
accumulator holds `kept_lines` in reverse (its head is
`kept_lines[-1]`); `kept_lines.append(line)` pushes onto it and
`kept_lines[-1] = line` replaces its head. -/
def dedupScan (ov : Audio → Audio → ℚ) (max_overlap : ℚ) (sa : SrcAttr) :
    List MiningLineResult → List MiningLineResult → List MiningLineResult
  | kept_rev, [] => kept_rev.reverse
  | [], line :: rest => dedupScan ov max_overlap sa [line] rest
  | lastK :: ks, line :: rest =>
    let overlap := ov (getAudioD sa lastK) (getAudioD sa line)
    if overlap > max_overlap then
      if lastK.score < line.score then dedupScan ov max_overlap sa (line :: ks) rest
      else dedupScan ov max_overlap sa (lastK :: ks) rest
    else dedupScan ov max_overlap sa (line :: lastK :: ks) rest

/-- One group's deduplication: sort by the start offset of the audio
item, then run the greedy last-kept-element scan. -/
def dedupGroup (ov : Audio → Audio → ℚ) (max_overlap : ℚ) (sa : SrcAttr)
    (line_list : List MiningLineResult) : List MiningLineResult :=
  dedupScan ov max_overlap sa [] (sortByStart sa line_list)

/-- `postprocess(sources)`: for each path group (in insertion order)
sort, deduplicate, extend `valid_audio`, and record
`{"starting_lines": len(line_list), "kept_lines": len(kept_lines)}`
(`line_list` names the sorted list after the rebinding on line 154). -/
def postprocess (cfg : PostProcessAudioConfig) (sa : SrcAttr) (sources : Sources) :
    List MiningLineResult × StatsL :=
  sources.foldl
    (fun acc pl =>
      let line_list := sortByStart sa pl.2
      let kept_lines :=
        dedupScan (fun a b => compute_overlap a b cfg.overlap_method) cfg.max_overlap sa
          [] line_list
      (acc.1 ++ kept_lines, acc.2 ++ [(pl.1, ⟨line_list.length, kept_lines.length⟩)]))
    ([], [])

/-- `float(stats["kept_lines"]) / stats["starting_lines"]`. -/
def ratioOf (st : RetentionStat) : ℚ :=
  (st.kept_lines : ℚ) / (st.starting_lines : ℚ)

/-- `paths = [p for p in filtering_stats.keys()]`. -/
def pathsOf (stats : StatsL) : List String :=
  stats.map Prod.fst

/-- The `percentage_kept` array. -/
def percentage_kept (stats : StatsL) : List ℚ :=
  stats.map (fun e => ratioOf e.2)

/-- `np.mean` (0 on the empty list, where numpy yields nan and every
downstream comparison is false — matching the all-false mask). -/
def listMean (l : List ℚ) : ℚ :=
  l.sum / (l.length : ℚ)

/-- `np.std(...)^2`: the population variance.  The variance rather than
the standard deviation is kept in `ℚ` so that the flagging test stays
executable; `isFlagged_iff_real` below relates it to the source's
`ratio < mean - k * std` over `ℝ`. -/
def listVar (l : List ℚ) : ℚ :=
  ((l.map (fun r => (r - listMean l) ^ 2)).sum) / (l.length : ℚ)

/-- The elementwise comparison `ratio < avg - k * std`, in the
square-free form `0 < avg - ratio ∧ k^2 * var < (avg - ratio)^2`, which
is equivalent over `ℝ` for `0 ≤ k` and `0 ≤ var` (see
`isFlagged_iff_real`) and is decidable over `ℚ`. -/
def isFlagged (avg varq k ratio : ℚ) : Bool :=
  decide (0 < avg - ratio) && decide (k ^ 2 * varq < (avg - ratio) ^ 2)

/-- The boolean mask `percentage_kept < avg - sigmas * std` with the
hardcoded `sigmas = 3` of `run`. -/
def flagMask (stats : StatsL) : List Bool :=
  (percentage_kept stats).map
    (isFlagged (listMean (percentage_kept stats)) (listVar (percentage_kept stats)) 3)

/-- `np.argwhere(mask)`: the ascending indices of the true entries. -/
def argwhere : List Bool → List Nat
  | [] => []
  | b :: bs =>
    let rest := (argwhere bs).map (· + 1)
    if b then 0 :: rest else rest

/-- `[paths[int(i)] for i in np.argwhere(mask)]` without the `.squeeze()`
pitfall: the paths whose retention ratio is flagged. -/
def outlierPaths (stats : StatsL) : List String :=
  (argwhere (flagMask stats)).map (fun i => (pathsOf stats).getD i "")

/-- The `below_sigs` comprehension as written: iterating
`np.argwhere(mask).squeeze()`.  `argwhere` returns a `(k, 1)` array;
`squeeze` turns it into a 0-d array exactly when `k = 1`, and iterating
a 0-d numpy array raises `TypeError`, aborting the run. -/
def below_sigs (stats : StatsL) : Except String (List String) :=
  if (argwhere (flagMask stats)).length = 1 then
    .error "TypeError: iteration over a 0-d array"
  else
    .ok (outlierPaths stats)

/-- The pure content of `run`: load, postprocess, and compute the
outlier report (`save_results` and the log statements are I/O). -/
def runPure (cfg : PostProcessAudioConfig) (lines : List RawLine) :
    Except LoadErr ((List MiningLineResult × StatsL) × Except String (List String)) :=
  (load_file cfg lines).map
    (fun res =>
      let pp := postprocess cfg res.1 res.2
      (pp, below_sigs pp.2))

/-!  ## The deduplication scan as the specification words it (claim C1)

`claimKeptStep` is written from the claim text: a record `r` is
appended when the kept list is empty or when the overlap with the last
kept element is at most `max_overlap`; on a strict conflict, the last
kept element is replaced by `r` iff its score is strictly below
`r.score`, and `r` is discarded otherwise.  -/

/-- One step of the kept-list scan, phrased exactly as the claim does
(on the forward kept list, touching only its last element). -/
def claimKeptStep (ov : Audio → Audio → ℚ) (max_overlap : ℚ) (sa : SrcAttr)
    (kept : List MiningLineResult) (r : MiningLineResult) : List MiningLineResult :=
  match kept.getLast? with
  | none => kept ++ [r]
  | some lastK =>
    if ov (getAudioD sa lastK) (getAudioD sa r) ≤ max_overlap then kept ++ [r]
    else if lastK.score < r.score then kept.dropLast ++ [r]
    else kept

/-- The claim's deduplicator: stable sort by start offset, then a
single left-to-right scan of `claimKeptStep`. -/
def claimDedup (ov : Audio → Audio → ℚ) (max_overlap : ℚ) (sa : SrcAttr)
    (l : List MiningLineResult) : List MiningLineResult :=
  (sortByStart sa l).foldl (claimKeptStep ov max_overlap sa) []

lemma dedupScan_eq_foldl (ov : Audio → Audio → ℚ) (mo : ℚ) (sa : SrcAttr) :
    ∀ (l acc : List MiningLineResult),
      dedupScan ov mo sa acc l = l.foldl (claimKeptStep ov mo sa) acc.reverse := by
  intro l
  induction l with
  | nil => intro acc; cases acc <;> rfl
  | cons line rest ih =>
    intro acc
    cases acc with
    | nil =>
      show dedupScan ov mo sa [line] rest =
        List.foldl (claimKeptStep ov mo sa) (([] : List MiningLineResult)).reverse (line :: rest)
      rw [ih [line]]
      rfl
    | cons lastK ks =>
      have hrev : (lastK :: ks).reverse = ks.reverse ++ [lastK] := List.reverse_cons lastK ks
      have hstep : claimKeptStep ov mo sa ((lastK :: ks).reverse) line =
          if ov (getAudioD sa lastK) (getAudioD sa line) ≤ mo then
            (line :: lastK :: ks).reverse
          else if lastK.score < line.score then (line :: ks).reverse
          else (lastK :: ks).reverse := by
        simp only [claimKeptStep, hrev, List.getLast?_concat]
        split_ifs <;> simp [List.dropLast_concat]
      simp only [List.foldl_cons, hstep, dedupScan]
      split_ifs <;> first | exact ih _ | linarith

/-!  ## Stability of the insertion sort -/

lemma filter_orderedInsert_key {α : Type} (key : α → ℚ) (s : ℚ) (a : α) :
    ∀ l : List α,
      (List.orderedInsert (fun x y => key x ≤ key y) a l).filter
          (fun r => decide (key r = s)) =
        if key a = s then a :: l.filter (fun r => decide (key r = s))
        else l.filter (fun r => decide (key r = s)) := by
  intro l
  induction l with
  | nil =>
    by_cases h : key a = s <;> simp [List.orderedInsert, List.filter, h]
  | cons b t ih =>
    simp only [List.orderedInsert]
    by_cases hab : key a ≤ key b
    · rw [if_pos hab]
      by_cases h : key a = s <;> simp [List.filter_cons, h]
    · rw [if_neg hab]
      have hba : key b < key a := not_le.mp hab
      rw [List.filter_cons, List.filter_cons, ih]
      by_cases h : key a = s
      · have hb : ¬ key b = s := fun hbs => absurd (hbs.trans h.symm) (ne_of_lt hba)
        simp [h, hb]
      · by_cases hb : key b = s <;> simp [h, hb]

lemma filter_insertionSort_key {α : Type} (key : α → ℚ) (s : ℚ) :
    ∀ l : List α,
      (List.insertionSort (fun x y => key x ≤ key y) l).filter
          (fun r => decide (key r = s)) =
        l.filter (fun r => decide (key r = s)) := by
  intro l
  induction l with
  | nil => rfl
  | cons a t ih =>
    simp only [List.insertionSort]
    rw [filter_orderedInsert_key key s a (List.insertionSort _ t), ih]
    by_cases h : key a = s <;> simp [List.filter_cons, h]

/-!  ## Length and statistics lemmas -/

lemma dedupScan_length (ov : Audio → Audio → ℚ) (mo : ℚ) (sa : SrcAttr) :
    ∀ (l acc : List MiningLineResult),
      (dedupScan ov mo sa acc l).length ≤ acc.length + l.length := by
  intro l
  induction l with
  | nil => intro acc; cases acc <;> simp [dedupScan]
  | cons line rest ih =>
    intro acc
    cases acc with
    | nil =>
      show (dedupScan ov mo sa [line] rest).length ≤
        ([] : List MiningLineResult).length + (line :: rest).length
      have h := ih [line]
      simp at h ⊢
      omega
    | cons lastK ks =>
      simp only [dedupScan]
      split_ifs
      · have h := ih (line :: ks); simp at h ⊢; omega
      · have h := ih (lastK :: ks); simp at h ⊢; omega
      · have h := ih (line :: lastK :: ks); simp at h ⊢; omega

lemma postprocess_snd (cfg : PostProcessAudioConfig) (sa : SrcAttr) (sources : Sources) :
    (postprocess cfg sa sources).2 = sources.map (fun pl =>
      (pl.1, ⟨(sortByStart sa pl.2).length,
        (dedupScan (fun a b => compute_overlap a b cfg.overlap_method) cfg.max_overlap sa []
          (sortByStart sa pl.2)).length⟩)) := by
  have key : ∀ (srcs : Sources) (init : List MiningLineResult × StatsL),
      (srcs.foldl
        (fun acc pl =>
          let line_list := sortByStart sa pl.2
          let kept_lines :=
            dedupScan (fun a b => compute_overlap a b cfg.overlap_method) cfg.max_overlap sa
              [] line_list
          (acc.1 ++ kept_lines, acc.2 ++ [(pl.1, ⟨line_list.length, kept_lines.length⟩)]))
        init).2 =
      init.2 ++ srcs.map (fun pl =>
        (pl.1, ⟨(sortByStart sa pl.2).length,
          (dedupScan (fun a b => compute_overlap a b cfg.overlap_method) cfg.max_overlap sa []
            (sortByStart sa pl.2)).length⟩)) := by
    intro srcs
    induction srcs with
    | nil => intro init; simp
    | cons pl rest ih => intro init; rw [List.foldl_cons, ih]; simp
  simpa [postprocess] using key sources ([], [])

/-!  ## Shared concrete inputs for witnesses and counterexamples -/

/-- A minimal configuration: thresholds 0, default overlap settings. -/
def cfgW : PostProcessAudioConfig := { min_audio_length := 0, mining_threshold := 0 }

/-- A well-formed record: audio on the `src` side. -/
def lineW : RawLine := ⟨.audio ⟨"a", 0, 10⟩, .text ⟨"t"⟩, 1⟩

/-- A one-group source mapping. -/
def sourcesW : Sources := [("a", [lineW])]

/-!  ## Claim theorems (first batch) -/

/-- C1: for every group, the deduplicator equals the claim's algorithm:
it stable-sorts the records by the start offset of the audio item
ascending and then performs the single kept-list scan in which a record
is appended when the kept list is empty or the overlap with the last
kept element is at most `max_overlap`, and on a strict conflict the
last kept element is replaced exactly when its score is strictly lower
(the claim-worded scan `claimDedup` touches only the last kept element
and never revisits a discarded record).  The sort is ascending in the
start offset, is a permutation of the input, and is stable: records
with equal start offsets keep their original relative order. -/
theorem C1_dedup_greedy (ov : Audio → Audio → ℚ) (max_overlap : ℚ) (sa : SrcAttr)
    (l : List MiningLineResult) :
    dedupGroup ov max_overlap sa l = claimDedup ov max_overlap sa l ∧
    (sortByStart sa l).Sorted (startLE sa) ∧
    (sortByStart sa l).Perm l ∧
    ∀ s : ℚ,
      (sortByStart sa l).filter (fun r => decide ((getAudioD sa r).start = s)) =
        l.filter (fun r => decide ((getAudioD sa r).start = s)) := by
  refine ⟨?_, ?_, ?_, ?_⟩
  · rw [dedupGroup, claimDedup, dedupScan_eq_foldl]
    rfl
  · exact List.sorted_insertionSort _ _
  · exact List.perm_insertionSort _ _
  · intro s
    exact filter_insertionSort_key (fun r => (getAudioD sa r).start) s l

/-- C5: the threshold filter accepts a record iff its score strictly
exceeds `mining_threshold` (the spec's `min_score`) and its audio
item's duration strictly exceeds `min_audio_length`; equality on either
threshold rejects. -/
theorem C5_threshold_filter (mining_threshold min_audio_length : ℚ) (sa : SrcAttr)
    (line : MiningLineResult) (a : Audio) (h : audioOf sa line = some a) :
    line_passes_thresholds mining_threshold min_audio_length sa line = true ↔
      (mining_threshold < line.score ∧ min_audio_length < a.duration) := by
  simp [line_passes_thresholds, getAudioD, h]

/-- Witness for C5 at a concrete record. -/
theorem C5_threshold_filter_witness :
    line_passes_thresholds 0 0 SrcAttr.src lineW = true ↔
      ((0 : ℚ) < lineW.score ∧ (0 : ℚ) < (10 : ℚ)) :=
  C5_threshold_filter 0 0 .src lineW ⟨"a", 0, 10⟩ rfl

/-- C6: deduplication never increases group size — every reported
statistics entry satisfies `kept_lines ≤ starting_lines`, and
`starting_lines` is the length of that group's input sequence. -/
theorem C6_kept_le_starting (cfg : PostProcessAudioConfig) (sa : SrcAttr) (sources : Sources)
    (p : String) (st : RetentionStat)
    (h : (p, st) ∈ (postprocess cfg sa sources).2) :
    st.kept_lines ≤ st.starting_lines ∧
      ∃ pl ∈ sources, pl.1 = p ∧ st.starting_lines = pl.2.length := by
  rw [postprocess_snd] at h
  obtain ⟨pl, hpl, heq⟩ := List.mem_map.mp h
  obtain ⟨hp, hst⟩ := Prod.mk.injEq .. |>.mp heq
  refine ⟨?_, pl, hpl, hp, ?_⟩
  · rw [← hst]
    simpa using dedupScan_length (fun a b => compute_overlap a b cfg.overlap_method)
      cfg.max_overlap sa (sortByStart sa pl.2) []
  · rw [← hst]
    exact (List.perm_insertionSort (startLE sa) pl.2).length_eq

/-- Witness for C6 at a concrete one-group input. -/
theorem C6_kept_le_starting_witness :
    (⟨1, 1⟩ : RetentionStat).kept_lines ≤ (⟨1, 1⟩ : RetentionStat).starting_lines ∧
      ∃ pl ∈ sourcesW, pl.1 = "a" ∧ (⟨1, 1⟩ : RetentionStat).starting_lines = pl.2.length :=
  C6_kept_le_starting cfgW .src sourcesW "a" ⟨1, 1⟩ (by decide)

/-- C7: the deduplicator is deterministic — two runs of `postprocess`
on the same grouped input with the same configuration produce the same
kept records and the same per-group statistics (the embedding is a pure
function: the sort is the deterministic stable insertion sort and the
scan has no other source of variation). -/
theorem C7_deterministic (cfg : PostProcessAudioConfig) (sa : SrcAttr) (sources : Sources)
    (out1 out2 : List MiningLineResult × StatsL)
    (h1 : out1 = postprocess cfg sa sources) (h2 : out2 = postprocess cfg sa sources) :
    out1 = out2 :=
  h1.trans h2.symm

/-- Witness for C7: two runs on a concrete input. -/
theorem C7_deterministic_witness :
    postprocess cfgW SrcAttr.src sourcesW = postprocess cfgW SrcAttr.src sourcesW :=
  C7_deterministic cfgW .src sourcesW _ _ rfl rfl

/-!  ## Loading invariants -/

/-- The invariant of records placed in the group keyed `p`: the selected
item is audio, its path is the group key, and the thresholds passed. -/
def goodRecord (mining_threshold min_audio_length : ℚ) (sa : SrcAttr) (p : String)
    (r : MiningLineResult) : Prop :=
  ∃ a, audioOf sa r = some a ∧ a.path = p ∧
    line_passes_thresholds mining_threshold min_audio_length sa r = true

lemma addGroup_inv {thr minLen : ℚ} {sa : SrcAttr} {path : String} {r : MiningLineResult} :
    ∀ {srcs : Sources},
      (∀ q l, (q, l) ∈ srcs → ∀ x ∈ l, goodRecord thr minLen sa q x) →
      goodRecord thr minLen sa path r →
      ∀ q l, (q, l) ∈ addGroup srcs path r → ∀ x ∈ l, goodRecord thr minLen sa q x := by
  intro srcs
  induction srcs with
  | nil =>
    intro _ hr q l hmem x hx
    simp only [addGroup, List.mem_singleton] at hmem
    simp only [Prod.mk.injEq] at hmem
    obtain ⟨rfl, rfl⟩ := hmem
    simp only [List.mem_singleton] at hx
    subst hx
    exact hr
  | cons e rest ih =>
    obtain ⟨k, kl⟩ := e
    intro hs hr q l hmem x hx
    by_cases hk : k = path
    · rw [show addGroup ((k, kl) :: rest) path r = (k, kl ++ [r]) :: rest from by
        simp [addGroup, hk]] at hmem
      rcases List.mem_cons.mp hmem with heq | hmem2
      · simp only [Prod.mk.injEq] at heq
        obtain ⟨rfl, rfl⟩ := heq
        rcases List.mem_append.mp hx with hx1 | hx2
        · exact hs q kl (List.mem_cons_self _ _) x hx1
        · simp only [List.mem_singleton] at hx2
          subst hx2
          rw [hk] at *
          exact hr
      · exact hs q l (List.mem_cons_of_mem _ hmem2) x hx
    · rw [show addGroup ((k, kl) :: rest) path r = (k, kl) :: addGroup rest path r from by
        simp [addGroup, hk]] at hmem
      rcases List.mem_cons.mp hmem with heq | hmem2
      · simp only [Prod.mk.injEq] at heq
        obtain ⟨rfl, rfl⟩ := heq
        exact hs q l (List.mem_cons_self _ _) x hx
      · exact ih (fun q2 l2 hm => hs q2 l2 (List.mem_cons_of_mem _ hm)) hr q l hmem2 x hx

lemma loadLoop_inv {thr minLen : ℚ} {sa : SrcAttr} :
    ∀ (lines : List RawLine) (srcs out : Sources),
      (∀ q l, (q, l) ∈ srcs → ∀ x ∈ l, goodRecord thr minLen sa q x) →
      loadLoop thr minLen sa lines srcs = .ok out →
      ∀ q l, (q, l) ∈ out → ∀ x ∈ l, goodRecord thr minLen sa q x := by
  intro lines
  induction lines with
  | nil =>
    intro srcs out hs h
    simp only [loadLoop, Except.ok.injEq] at h
    subst h
    exact hs
  | cons line rest ih =>
    intro srcs out hs h
    simp only [loadLoop] at h
    split at h
    · simp at h
    · rename_i a ha
      split at h
      · rename_i hp
        exact ih _ out (addGroup_inv hs ⟨a, ha, rfl, hp⟩) h
      · exact ih _ out hs h

/-- C9: after loading, every record stored under a group key has its
audio item's path equal to the key, and only threshold-passing records
are ever placed in a group. -/
theorem C9_grouping_invariant (cfg : PostProcessAudioConfig) (lines : List RawLine)
    (sa : SrcAttr) (sources : Sources)
    (h : load_file cfg lines = .ok (sa, sources)) :
    ∀ p l, (p, l) ∈ sources → ∀ r ∈ l,
      ∃ a, audioOf sa r = some a ∧ a.path = p ∧
        line_passes_thresholds cfg.mining_threshold cfg.min_audio_length sa r = true := by
  cases lines with
  | nil => exact absurd h (by simp [load_file])
  | cons line0 rest =>
    simp only [load_file] at h
    split at h
    · simp at h
    · rename_i sa0 hwa
      cases hl : loadLoop cfg.mining_threshold cfg.min_audio_length sa0 (line0 :: rest) [] with
      | error e => rw [hl] at h; simp [Except.map] at h
      | ok s =>
        rw [hl] at h
        simp only [Except.map, Except.ok.injEq, Prod.mk.injEq] at h
        obtain ⟨rfl, rfl⟩ := h
        intro p l hmem r hr
        exact loadLoop_inv (line0 :: rest) [] s (by simp) hl p l hmem r hr

/-- Witness for C9: the single-record run. -/
theorem C9_grouping_invariant_witness :
    ∃ a, audioOf SrcAttr.src lineW = some a ∧ a.path = "a" ∧
      line_passes_thresholds cfgW.mining_threshold cfgW.min_audio_length SrcAttr.src lineW =
        true :=
  C9_grouping_invariant cfgW [lineW] SrcAttr.src [("a", [lineW])] (by decide)
    "a" [lineW] (by decide) lineW (by decide)

/-!  ## The audio-role check and the sampling factor -/

lemma isAudio_split (sf : Option ℚ) (l : RawLine) :
    (split_mining_line l sf).src.isAudio = l.src.isAudio ∧
      (split_mining_line l sf).tgt.isAudio = l.tgt.isAudio := by
  cases sf with
  | none => exact ⟨rfl, rfl⟩
  | some f =>
    constructor
    · cases h : l.src <;> simp [split_mining_line, rescaleItem, Item.isAudio, h]
    · cases h : l.tgt <;> simp [split_mining_line, rescaleItem, Item.isAudio, h]

lemma which_split (sf : Option ℚ) (l : RawLine) :
    which_object_audio (split_mining_line l sf).src (split_mining_line l sf).tgt l =
      which_object_audio l.src l.tgt l := by
  unfold which_object_audio
  rw [(isAudio_split sf l).1, (isAudio_split sf l).2]

lemma load_file_congr (cfg1 cfg2 : PostProcessAudioConfig) (lines : List RawLine)
    (h1 : cfg1.mining_threshold = cfg2.mining_threshold)
    (h2 : cfg1.min_audio_length = cfg2.min_audio_length) :
    load_file cfg1 lines = load_file cfg2 lines := by
  cases lines with
  | nil => rfl
  | cons line0 rest =>
    simp only [load_file]
    rw [which_split cfg1.sampling_factor line0, which_split cfg2.sampling_factor line0, h1, h2]

/-- A record in which neither item is audio. -/
def textLine : RawLine := ⟨.text ⟨"u"⟩, .text ⟨"v"⟩, 1⟩

/-- C4 counterexample: when the neither-item-is-audio record is not the
first line of the stream, the run does not fail with the validation
error identifying it — `which_object_audio` is called on the first line
only, and the run instead dies on the attribute access
`self.load_input(mining_result).path` applied to a text item. -/
theorem C4_counterexample :
    load_file cfgW [lineW, textLine] = .error .attrError ∧
      load_file cfgW [lineW, textLine] ≠ .error (.notAudio textLine) := by
  constructor
  · decide
  · decide

/-- C4 amended: only the first record is validated — if the FIRST
record of the stream has neither item audio, the run fails with the
validation error identifying that raw input, and the whole run aborts
(the error propagates through `runPure`). -/
theorem C4_first_record_validation (cfg : PostProcessAudioConfig) (line0 : RawLine)
    (rest : List RawLine) (h1 : line0.src.isAudio = false) (h2 : line0.tgt.isAudio = false) :
    load_file cfg (line0 :: rest) = .error (.notAudio line0) ∧
      runPure cfg (line0 :: rest) = .error (.notAudio line0) := by
  have hw : which_object_audio (split_mining_line line0 cfg.sampling_factor).src
      (split_mining_line line0 cfg.sampling_factor).tgt line0 = .error (.notAudio line0) := by
    rw [which_split]
    unfold which_object_audio
    rw [h1, h2]
    simp
  constructor
  · simp only [load_file, hw]
  · simp only [runPure, load_file, hw, Except.map]

/-- Witness for C4 (amended) at a concrete stream. -/
theorem C4_first_record_validation_witness :
    load_file cfgW (textLine :: [lineW]) = .error (.notAudio textLine) ∧
      runPure cfgW (textLine :: [lineW]) = .error (.notAudio textLine) :=
  C4_first_record_validation cfgW textLine [lineW] rfl rfl

/-- C10: the configured `sampling_factor` only affects the throwaway
parse of the first line used for audio-role detection; every grouped
record is re-parsed with `sampling_factor=None`, so two runs differing
only in `sampling_factor` load identical groups and produce identical
deduplication output, statistics and outlier report. -/
theorem C10_sampling_factor_irrelevant (c : PostProcessAudioConfig) (sf1 sf2 : Option ℚ)
    (lines : List RawLine) :
    load_file { c with sampling_factor := sf1 } lines =
        load_file { c with sampling_factor := sf2 } lines ∧
      runPure { c with sampling_factor := sf1 } lines =
        runPure { c with sampling_factor := sf2 } lines := by
  have hl := load_file_congr { c with sampling_factor := sf1 }
    { c with sampling_factor := sf2 } lines rfl rfl
  refine ⟨hl, ?_⟩
  unfold runPure
  rw [hl]
  rfl

/-!  ## Statistics and the outlier report -/

lemma argwhere_map_getD {α β : Type} (p : α → Bool) (g : α → β) (d : β) :
    ∀ l : List α,
      (argwhere (l.map p)).map (fun i => (l.map g).getD i d) = (l.filter p).map g := by
  intro l
  induction l with
  | nil => rfl
  | cons a t ih =>
    simp only [List.map_cons, argwhere]
    by_cases h : p a = true
    · rw [if_pos h, List.filter_cons_of_pos h]
      simp only [List.map_cons, List.getD_cons_zero, List.map_map, Function.comp_def,
        List.getD_cons_succ]
      rw [ih]
    · rw [if_neg h, List.filter_cons_of_neg (by simpa using h)]
      simp only [List.map_map, Function.comp_def, List.getD_cons_succ]
      rw [ih]

lemma outlierPaths_eq_filter (stats : StatsL) :
    outlierPaths stats =
      (stats.filter (fun e =>
        isFlagged (listMean (percentage_kept stats)) (listVar (percentage_kept stats)) 3
          (ratioOf e.2))).map Prod.fst := by
  unfold outlierPaths flagMask pathsOf percentage_kept
  rw [List.map_map]
  exact argwhere_map_getD _ Prod.fst "" stats

lemma listVar_nonneg (l : List ℚ) : 0 ≤ listVar l := by
  unfold listVar
  apply div_nonneg
  · apply List.sum_nonneg
    intro x hx
    obtain ⟨r, _, rfl⟩ := List.mem_map.mp hx
    positivity
  · positivity

/-- The square-free flag test agrees with the source's real-valued
comparison `ratio < avg - k * std`, where `std` is the square root of
the population variance. -/
lemma isFlagged_iff_real (avg varq k ratio : ℚ) (hk : (0 : ℚ) ≤ k) (hv : (0 : ℚ) ≤ varq) :
    isFlagged avg varq k ratio = true ↔
      (ratio : ℝ) < (avg : ℝ) - (k : ℝ) * Real.sqrt (varq : ℝ) := by
  have hvR : (0 : ℝ) ≤ (varq : ℝ) := by exact_mod_cast hv
  have hkR : (0 : ℝ) ≤ (k : ℝ) := by exact_mod_cast hk
  have hs : Real.sqrt (varq : ℝ) ^ 2 = (varq : ℝ) := Real.sq_sqrt hvR
  have hsn : (0 : ℝ) ≤ Real.sqrt (varq : ℝ) := Real.sqrt_nonneg _
  simp only [isFlagged, Bool.and_eq_true, decide_eq_true_eq]
  constructor
  · rintro ⟨h1, h2⟩
    have h1R : (0 : ℝ) < (avg : ℝ) - (ratio : ℝ) := by exact_mod_cast h1
    have h2R : (k : ℝ) ^ 2 * (varq : ℝ) < ((avg : ℝ) - (ratio : ℝ)) ^ 2 := by
      exact_mod_cast h2
    have hlt : (k : ℝ) * Real.sqrt (varq : ℝ) < (avg : ℝ) - (ratio : ℝ) := by
      apply lt_of_pow_lt_pow_left₀ 2 h1R.le
      calc ((k : ℝ) * Real.sqrt (varq : ℝ)) ^ 2
          = (k : ℝ) ^ 2 * (varq : ℝ) := by rw [mul_pow, hs]
        _ < ((avg : ℝ) - (ratio : ℝ)) ^ 2 := h2R
    linarith
  · intro h
    have hlt : (k : ℝ) * Real.sqrt (varq : ℝ) < (avg : ℝ) - (ratio : ℝ) := by linarith
    have hks : (0 : ℝ) ≤ (k : ℝ) * Real.sqrt (varq : ℝ) := mul_nonneg hkR hsn
    have h1R : (0 : ℝ) < (avg : ℝ) - (ratio : ℝ) := lt_of_le_of_lt hks hlt
    have h2R : (k : ℝ) ^ 2 * (varq : ℝ) < ((avg : ℝ) - (ratio : ℝ)) ^ 2 := by
      calc (k : ℝ) ^ 2 * (varq : ℝ)
          = ((k : ℝ) * Real.sqrt (varq : ℝ)) ^ 2 := by rw [mul_pow, hs]
        _ < ((avg : ℝ) - (ratio : ℝ)) ^ 2 := by
            apply pow_lt_pow_left₀ hlt hks
            omega
    constructor
    · exact_mod_cast h1R
    · exact_mod_cast h2R

lemma sum_zero_of_nonneg : ∀ (l : List ℚ), (∀ x ∈ l, 0 ≤ x) → l.sum = 0 → ∀ x ∈ l, x = 0 := by
  intro l
  induction l with
  | nil => intro _ _ x hx; exact absurd hx (List.not_mem_nil x)
  | cons a t ih =>
    intro hnn hsum x hx
    have ha : 0 ≤ a := hnn a (List.mem_cons_self a t)
    have ht : 0 ≤ t.sum := List.sum_nonneg (fun y hy => hnn y (List.mem_cons_of_mem a hy))
    rw [List.sum_cons] at hsum
    rcases List.mem_cons.mp hx with rfl | hx2
    · linarith
    · exact ih (fun y hy => hnn y (List.mem_cons_of_mem a hy)) (by linarith) x hx2

lemma eq_mean_of_var_zero {l : List ℚ} (h : listVar l = 0) : ∀ r ∈ l, r = listMean l := by
  intro r hr
  have hl : l ≠ [] := fun he => by subst he; exact absurd hr (List.not_mem_nil r)
  have hn : (0 : ℚ) < (l.length : ℚ) := by
    have := List.length_pos.mpr hl
    exact_mod_cast this
  have hsum : (l.map (fun x => (x - listMean l) ^ 2)).sum = 0 := by
    unfold listVar at h
    rcases div_eq_zero_iff.mp h with h1 | h2
    · exact h1
    · exact absurd h2 (ne_of_gt hn)
  have hterm : (r - listMean l) ^ 2 = 0 :=
    sum_zero_of_nonneg _
      (fun x hx => by obtain ⟨y, _, rfl⟩ := List.mem_map.mp hx; positivity)
      hsum _ (List.mem_map_of_mem _ hr)
  have := sq_eq_zero_iff.mp hterm
  linarith [sub_eq_zero.mp this]

lemma argwhere_eq_nil : ∀ {mask : List Bool}, (∀ b ∈ mask, b = false) → argwhere mask = [] := by
  intro mask
  induction mask with
  | nil => intro _; rfl
  | cons b bs ih =>
    intro h
    have hb : b = false := h b (List.mem_cons_self b bs)
    have hr : argwhere bs = [] := ih (fun x hx => h x (List.mem_cons_of_mem b hx))
    simp [argwhere, hb, hr]

/-!  ## Claim theorems: statistics -/

/-- A group whose two fully-overlapping records retain 1 of 2 lines,
next to ten groups that retain everything: exactly one retention
outlier. -/
def mkLine (p : String) (sc : ℚ) : RawLine := ⟨.audio ⟨p, 0, 10⟩, .text ⟨"t"⟩, sc⟩

/-- Twelve raw lines over eleven audio paths; path "a" keeps 1 of its 2
records, the other ten paths keep their single record. -/
def linesCrash : List RawLine :=
  [mkLine "a" 2, mkLine "a" 1, mkLine "b" 1, mkLine "c" 1, mkLine "d" 1, mkLine "e" 1,
   mkLine "f" 1, mkLine "g" 1, mkLine "h" 1, mkLine "i" 1, mkLine "j" 1, mkLine "k" 1]

/-- The groups `load_file` builds from `linesCrash`. -/
def sourcesCrash : Sources :=
  [("a", [mkLine "a" 2, mkLine "a" 1]), ("b", [mkLine "b" 1]), ("c", [mkLine "c" 1]),
   ("d", [mkLine "d" 1]), ("e", [mkLine "e" 1]), ("f", [mkLine "f" 1]), ("g", [mkLine "g" 1]),
   ("h", [mkLine "h" 1]), ("i", [mkLine "i" 1]), ("j", [mkLine "j" 1]), ("k", [mkLine "k" 1])]

/-- The retention statistics of `sourcesCrash`: ratio 1/2 for "a", 1
for the ten others — exactly one low-retention outlier. -/
def statsCrash : StatsL :=
  [("a", ⟨2, 1⟩), ("b", ⟨1, 1⟩), ("c", ⟨1, 1⟩), ("d", ⟨1, 1⟩), ("e", ⟨1, 1⟩), ("f", ⟨1, 1⟩),
   ("g", ⟨1, 1⟩), ("h", ⟨1, 1⟩), ("i", ⟨1, 1⟩), ("j", ⟨1, 1⟩), ("k", ⟨1, 1⟩)]

/-- C2 (code bug): on a pipeline input that produces exactly one
low-retention outlier, the outlier computation does not succeed — the
run aborts with the `TypeError` from iterating the 0-d array that
`np.argwhere(...).squeeze()` yields for a single match. -/
theorem C2_outlier_computation_crashes :
    (runPure cfgW linesCrash).map (fun out => out.2) =
      .ok (.error "TypeError: iteration over a 0-d array") := by
  have hload : load_file cfgW linesCrash = .ok (.src, sourcesCrash) := by decide
  have hpost : (postprocess cfgW .src sourcesCrash).2 = statsCrash := by
    norm_num [postprocess, sourcesCrash, statsCrash, sortByStart, startLE, dedupScan,
      compute_overlap, getAudioD, audioOf, load_input, mkLine, cfgW, List.insertionSort,
      List.orderedInsert]
  have hbs : below_sigs statsCrash = .error "TypeError: iteration over a 0-d array" := by
    norm_num [below_sigs, argwhere, flagMask, percentage_kept, statsCrash, ratioOf, isFlagged,
      listMean, listVar, outlierPaths, pathsOf]
  unfold runPure
  rw [hload]
  simp only [Except.map]
  rw [hpost, hbs]

/-- C3 (amended): a path is flagged as a low-retention outlier iff its
retention ratio is strictly below `mean - 3 * stddev` over the reals,
where 3 is the hardcoded `sigmas` literal of `run` (there is no
`sigma_multiplier` configuration field). -/
theorem C3_flagging_rule (stats : StatsL) (p : String) :
    p ∈ outlierPaths stats ↔
      ∃ st, (p, st) ∈ stats ∧
        (ratioOf st : ℝ) <
          (listMean (percentage_kept stats) : ℝ) -
            3 * Real.sqrt ((listVar (percentage_kept stats) : ℝ)) := by
  have hv := listVar_nonneg (percentage_kept stats)
  have hcast : ((3 : ℚ) : ℝ) = (3 : ℝ) := by norm_num
  rw [outlierPaths_eq_filter]
  constructor
  · intro h
    obtain ⟨e, he, rfl⟩ := List.mem_map.mp h
    obtain ⟨hmem, hflag⟩ := List.mem_filter.mp he
    refine ⟨e.2, ?_, ?_⟩
    · rw [Prod.mk.eta]
      exact hmem
    · have hR := (isFlagged_iff_real _ _ 3 _ (by norm_num) hv).mp hflag
      rw [hcast] at hR
      exact hR
  · rintro ⟨st, hmem, hlt⟩
    apply List.mem_map.mpr
    refine ⟨(p, st), List.mem_filter.mpr ⟨hmem, ?_⟩, rfl⟩
    apply (isFlagged_iff_real _ _ 3 _ (by norm_num) hv).mpr
    rw [hcast]
    exact hlt

/-- Retention statistics with 25 groups of ratio 1 and two of ratio
1/2: both low-ratio paths lie between 3 and 4 population standard
deviations below the mean. -/
def statsCE : StatsL :=
  List.replicate 25 ("a", ⟨1, 1⟩) ++ [("y", ⟨2, 1⟩), ("z", ⟨2, 1⟩)]

/-- C3 counterexample: the flagging multiplier is not configurable —
with multiplier 4 (a value the claimed `sigma_multiplier` field could
hold), path "z" is flagged by the code although its ratio is NOT below
`mean - 4 * stddev`; the code always uses the literal 3. -/
theorem C3_counterexample :
    "z" ∈ outlierPaths statsCE ∧
      ¬ ((ratioOf ⟨2, 1⟩ : ℝ) <
          (listMean (percentage_kept statsCE) : ℝ) -
            4 * Real.sqrt ((listVar (percentage_kept statsCE) : ℝ))) := by
  constructor
  · norm_num [outlierPaths, argwhere, flagMask, percentage_kept, statsCE, ratioOf, isFlagged,
      listMean, listVar, pathsOf, List.replicate]
  · have hv := listVar_nonneg (percentage_kept statsCE)
    have hcast : ((4 : ℚ) : ℝ) = (4 : ℝ) := by norm_num
    rw [← hcast, ← isFlagged_iff_real _ _ 4 _ (by norm_num) hv]
    norm_num [isFlagged, percentage_kept, statsCE, ratioOf, listMean, listVar,
      List.replicate]

/-- C8: if the population standard deviation of the retention ratios is
0, no path is flagged (and the outlier report succeeds with the empty
list). -/
theorem C8_zero_stddev_no_outliers (stats : StatsL)
    (h : listVar (percentage_kept stats) = 0) :
    outlierPaths stats = [] ∧ below_sigs stats = .ok [] := by
  have hmask : ∀ b ∈ flagMask stats, b = false := by
    intro b hb
    obtain ⟨r, hr, rfl⟩ := List.mem_map.mp hb
    have hrm : r = listMean (percentage_kept stats) := eq_mean_of_var_zero h r hr
    simp [isFlagged, hrm]
  have hargw : argwhere (flagMask stats) = [] := argwhere_eq_nil hmask
  have hop : outlierPaths stats = [] := by
    unfold outlierPaths
    rw [hargw]
    rfl
  refine ⟨hop, ?_⟩
  unfold below_sigs
  rw [hargw, hop]
  simp

/-- Statistics whose ratios are all equal (variance 0). -/
def statsEq : StatsL := [("a", ⟨2, 1⟩), ("b", ⟨4, 2⟩)]

/-- Witness for C8 at concrete all-equal-ratio statistics. -/
theorem C8_zero_stddev_no_outliers_witness :
    outlierPaths statsEq = [] ∧ below_sigs statsEq = .ok [] :=
  C8_zero_stddev_no_outliers statsEq
    (by norm_num [listVar, percentage_kept, statsEq, listMean, ratioOf])

end Stopes
